import Mathlib

/-!
Verification of the version-sync tool (`__main__.py`).

Files are modelled as flat character lists.  Line splitting keeps the trailing
newline of each line, mirroring Python text-file iteration / `readlines`.
`Option` is used for fallible operations: at the outer level `none` models a
raised (uncaught) Python exception; a value of type `Option Str` inside a
successful result models a Python value that may be `None`.
-/

namespace VersionSync

abbrev Str := List Char

/-- A file system: an association list from file names to file contents. -/
abbrev FS := List (Str × Str)

/-- Python-style splitting of a flat file into lines.  Each line keeps its
trailing newline character; a final line without a newline is kept as-is.
Mirrors iteration over an open text file and `readlines`. -/
def splitKeepEnds : Str → List Str
  | [] => []
  | c :: rest =>
    if c = '\n' then ['\n'] :: splitKeepEnds rest
    else
      match splitKeepEnds rest with
      | [] => [[c]]
      | l :: ls => (c :: l) :: ls

/-- Concatenation of lines back into a flat file (Python `writelines`). -/
def joinAll : List Str → Str
  | [] => []
  | l :: ls => l ++ joinAll ls

/-- Does `needle` occur in `hay` starting exactly at index `i`? -/
def matchAt (hay needle : Str) (i : Nat) : Bool :=
  decide ((hay.drop i).take needle.length = needle)

/-- Worker for `pyFind`: try indices `j, j+1, ...` while fuel lasts. -/
def pyFindGo (hay needle : Str) : Nat → Nat → Option Nat
  | _, 0 => none
  | j, fuel + 1 =>
    if matchAt hay needle j then some j else pyFindGo hay needle (j + 1) fuel

/-- Python `hay.find(needle, start)`: the least index `j ≥ start` at which
`needle` occurs in `hay`, `none` standing for Python's `-1`. -/
def pyFind (hay needle : Str) (start : Nat) : Option Nat :=
  pyFindGo hay needle start (hay.length + 1 - start)

/-- Line selected by `for i, line in enumerate(...): if i == line_number-1`:
for `ln = 0` the test `i == -1` never succeeds, otherwise it is the
`(ln-1)`-th line when that exists and `None` (here `none`) when the file has
too few lines. -/
def selectLine (lines : List Str) (ln : Nat) : Option Str :=
  if ln = 0 then none else lines.get? (ln - 1)

/-- Index targeted by Python `lines[ln - 1]`: for `ln = 0` this is `lines[-1]`,
the last line (Python negative indexing); out-of-range access raises
IndexError, modelled by `none`. -/
def pyIdx (len ln : Nat) : Option Nat :=
  if ln = 0 then (if len = 0 then none else some (len - 1))
  else if ln - 1 < len then some (ln - 1) else none

/-- Body of `get_version_str` on the selected line:
`if end: end_index = line.find(end, position); return line[position:end_index]`
(`end_index` may be `-1`), else `return line[position:-1]`. -/
def extractFromLine (line : Str) (pos : Nat) (endS : Str) : Str :=
  if endS = [] then (line.take (line.length - 1)).drop pos
  else
    match pyFind line endS pos with
    | none => (line.take (line.length - 1)).drop pos
    | some j => (line.take j).drop pos

/-- `get_version_str` over the content of an already-opened file.  Returns
`none` when the loop finds no line with the requested number (Python returns
`None` in that case; no exception is raised). -/
def get_version_str (content : Str) (ln pos : Nat) (endS : Str) : Option Str :=
  match selectLine (splitKeepEnds content) ln with
  | none => none
  | some line => some (extractFromLine line pos endS)

/-- Replacement line built by `set_version_str`:
`line[:position] + version + "\n"` when `end` is falsy or not found, else
`line[:position] + version + line[end_index:]`. -/
def rewriteLine (line : Str) (pos : Nat) (endS ver : Str) : Str :=
  if endS = [] then line.take pos ++ ver ++ ['\n']
  else
    match pyFind line endS pos with
    | none => line.take pos ++ ver ++ ['\n']
    | some j => line.take pos ++ ver ++ line.drop j

/-- `set_version_str` over the content of a file: read all lines, replace
`lines[line_number-1]`, write everything back.  `none` models the IndexError
raised when the index is out of range. -/
def set_version_str (content : Str) (ln pos : Nat) (endS ver : Str) : Option Str :=
  match pyIdx (splitKeepEnds content).length ln with
  | none => none
  | some i =>
    match (splitKeepEnds content).get? i with
    | none => none
    | some line =>
      some (joinAll ((splitKeepEnds content).set i (rewriteLine line pos endS ver)))

/-- Look a file up in the file system (Python `open(file, "r")`). -/
def lookupFS : FS → Str → Option Str
  | [], _ => none
  | (n, c) :: rest, name => if n = name then some c else lookupFS rest name

/-- Write a file (Python `open(file, "w")` creates or truncates). -/
def updateFS : FS → Str → Str → FS
  | [], name, content => [(name, content)]
  | (n, c) :: rest, name, content =>
    if n = name then (n, content) :: rest else (n, c) :: updateFS rest name content

/-- `get_version_str` including the `open` call: outer `none` is a raised
I/O error (missing file); the inner option is the Python return value. -/
def get_version_str_io (fs : FS) (f : Str) (ln pos : Nat) (endS : Str) :
    Option (Option Str) :=
  match lookupFS fs f with
  | none => none
  | some content => some (get_version_str content ln pos endS)

/-- `set_version_str` including the file I/O; `none` is a raised exception
(missing file or IndexError). -/
def set_version_str_io (fs : FS) (f : Str) (ln pos : Nat) (endS ver : Str) :
    Option FS :=
  match lookupFS fs f with
  | none => none
  | some content =>
    match set_version_str content ln pos endS ver with
    | none => none
    | some content' => some (updateFS fs f content')

/-- Numeric value of a decimal digit character. -/
def digitVal (c : Char) : Nat := c.toNat - '0'.toNat

/-- Worker for `tokenize`: the accumulator holds the value of the digit run
currently being read, if any. -/
def tokenizeAux : Str → Option Nat → List Nat
  | [], none => []
  | [], some n => [n]
  | c :: rest, none =>
    if c.isDigit then tokenizeAux rest (some (digitVal c)) else tokenizeAux rest none
  | c :: rest, some n =>
    if c.isDigit then tokenizeAux rest (some (n * 10 + digitVal c))
    else n :: tokenizeAux rest none

/-- `list(map(int, re.findall(r"\d+", v)))`: the values of the maximal
decimal-digit runs of `v`, left to right. -/
def tokenize (s : Str) : List Nat := tokenizeAux s none

/-- Inner comparison loop of `get_highest_version`: `true` iff at the first
position (within the length of `best`) where the vectors differ, `v_arr` is
strictly larger; stops without a winner when either vector runs out. -/
def beats : List Nat → List Nat → Bool
  | _, [] => false
  | [], _ :: _ => false
  | a :: as, b :: bs => if b < a then true else if a < b then false else beats as bs

/-- Scan of `get_highest_version` over the dict values.  The state holds the
current `(highest_version, highest_str)` pair if any.  A `none` list element
is a Python `None` value, on which `re.findall` raises TypeError (outer
`none`).  The inner option of the result is the Python return value
(`highest_str`, possibly `None`). -/
def highestScan : List (Option Str) → Option (List Nat × Str) → Option (Option Str)
  | [], st => some (Option.map Prod.snd st)
  | none :: _, _ => none
  | some v :: rest, st =>
    if (tokenize v).isEmpty then highestScan rest st
    else
      match st with
      | none => highestScan rest (some (tokenize v, v))
      | some (best, bs) =>
        if beats (tokenize v) best then highestScan rest (some (tokenize v, v))
        else highestScan rest (some (best, bs))

/-- `get_highest_version` on the dict values in iteration order. -/
def get_highest_version (vs : List (Option Str)) : Option (Option Str) :=
  highestScan vs none

/-- Loop of `versions_match`: the first argument is `base` (initially
Python `None`). -/
def vmGo : Option Str → List (Option Str) → Bool
  | _, [] => true
  | none, v :: rest => vmGo v rest
  | some b, v :: rest => if v = some b then vmGo (some b) rest else false

/-- `versions_match` on the dict values in iteration order. -/
def versions_match (vs : List (Option Str)) : Bool := vmGo none vs

/-- One location entry of the configuration (`file`, `line`, `char`, `end`);
the terminator field is named `endTok` because `end` is a Lean keyword. -/
structure FileConfig where
  file : Str
  line : Nat
  char : Nat
  endTok : Str
deriving DecidableEq

/-- One printed line of console output, by shape. -/
inductive OutLine where
  | allMatch
  | runWithU
  | suggestion (pkg ver : Str)
  | mismatchHeader (pkg : Str)
  | mismatchLine (ver : Option Str) (file : Str)
  | upgrading (pkg : Str) (ver : Option Str)
  | updated (file : Str)
  | blank
deriving DecidableEq

/-- Python-dict insertion: overwrite in place when the key exists (keeping its
position), else append. -/
def dictInsert {β : Type} (d : List (Str × β)) (k : Str) (v : β) : List (Str × β) :=
  if d.any (fun p => decide (p.1 = k)) then
    d.map (fun p => if p.1 = k then (k, v) else p)
  else d ++ [(k, v)]

/-- Python-dict lookup (`versions[file_name]`); the key is always present in
the uses below, so the default for a missing key is irrelevant. -/
def vLookup {β : Type} : List (Str × Option β) → Str → Option β
  | [], _ => none
  | (n, v) :: rest, k => if n = k then v else vLookup rest k

/-- Extraction loop of `process_package`: build the `versions` dict, aborting
(`none`) when a file cannot be opened. -/
def extractAll (fs : FS) : List FileConfig → List (Str × Option Str) →
    Option (List (Str × Option Str))
  | [], acc => some acc
  | cfg :: rest, acc =>
    match lookupFS fs cfg.file with
    | none => none
    | some content =>
      extractAll fs rest
        (dictInsert acc cfg.file (get_version_str content cfg.line cfg.char cfg.endTok))

/-- Upgrade loop of `process_package`: rewrite every location whose extracted
value differs from `highest_version`, in declaration order.  When
`highest_version` is Python `None`, `set_version_str` raises TypeError on the
string concatenation (outer `none`). -/
def upgradeLoop (versions : List (Str × Option Str)) (hv : Option Str) :
    List FileConfig → FS → List OutLine → Option (FS × List OutLine)
  | [], fs, outs => some (fs, outs)
  | cfg :: rest, fs, outs =>
    if vLookup versions cfg.file = hv then upgradeLoop versions hv rest fs outs
    else
      match hv with
      | none => none
      | some v =>
        match set_version_str_io fs cfg.file cfg.line cfg.char cfg.endTok v with
        | none => none
        | some fs' =>
          upgradeLoop versions hv rest fs' (outs ++ [OutLine.updated cfg.file])

/-- `process_package`: returns the new file system, the printed lines and the
value returned to `process_config` (the pending-upgrade suggestion); `none`
models an uncaught exception. -/
def process_package (fs : FS) (pkg : Str) (cfgs : List FileConfig)
    (upgrade : Bool) : Option (FS × List OutLine × Option Str) :=
  match extractAll fs cfgs [] with
  | none => none
  | some versions =>
    if versions_match (versions.map Prod.snd) then some (fs, [], none)
    else
      match get_highest_version (versions.map Prod.snd) with
      | none => none
      | some hv =>
        if upgrade then
          match upgradeLoop versions hv cfgs fs [] with
          | none => none
          | some (fs', outs) =>
            some (fs', (OutLine.upgrading pkg hv :: outs) ++ [OutLine.blank], none)
        else
          some (fs,
            OutLine.mismatchHeader pkg ::
              (versions.map (fun p => OutLine.mismatchLine p.2 p.1)) ++ [OutLine.blank],
            hv)

/-- Result of `process_config`: a normal return with final file system,
output and boolean result; a propagated exception; or the `assert False`
branch. -/
inductive ConfigResult where
  | ok (fs : FS) (out : List OutLine) (success : Bool)
  | exn
  | assertFail (fs : FS) (out : List OutLine)
deriving DecidableEq

/-- Main loop of `process_config`, accumulating output and the `upgrades`
dict. -/
def process_config_go (upgrade : Bool) :
    List (Str × List FileConfig) → FS → List OutLine → List (Str × Str) →
    ConfigResult
  | [], fs, outs, upgrades =>
    if upgrades = [] then ConfigResult.ok fs (outs ++ [OutLine.allMatch]) true
    else if upgrade = false then
      ConfigResult.ok fs
        (outs ++ OutLine.runWithU :: upgrades.map (fun p => OutLine.suggestion p.1 p.2))
        true
    else ConfigResult.assertFail fs outs
  | (pkg, cfgs) :: rest, fs, outs, upgrades =>
    match process_package fs pkg cfgs upgrade with
    | none => ConfigResult.exn
    | some (fs', pouts, pending) =>
      let upgrades' :=
        match pending with
        | some v => if v = [] then upgrades else dictInsert upgrades pkg v
        | none => upgrades
      process_config_go upgrade rest fs' (outs ++ pouts) upgrades'

/-- `process_config`: process every package, then either report success or
reach the `assert False` branch. -/
def process_config (fs : FS) (config : List (Str × List FileConfig))
    (upgrade : Bool) : ConfigResult :=
  process_config_go upgrade config fs [] []

/-- No newline character occurs in `l`. -/
abbrev noNl (l : Str) : Prop := ∀ c ∈ l, c ≠ '\n'

/-- Well-formed line lists: every line but the last is a newline-free run
followed by a single newline; the last line is either of that shape or a
nonempty newline-free run.  `splitKeepEnds` produces exactly such lists. -/
def WFlines : List Str → Prop
  | [] => True
  | [l] => l ≠ [] ∧ ((∃ A, noNl A ∧ l = A ++ ['\n']) ∨ noNl l)
  | l :: l2 :: ls => (∃ A, noNl A ∧ l = A ++ ['\n']) ∧ WFlines (l2 :: ls)

/-- Concrete file system used to exercise the upgrade path end to end. -/
def fsU : FS := [("a.txt".data, "1.0\n".data), ("b.txt".data, "2.0\n".data)]

/-- Concrete configuration: one package tracked in the two files of `fsU`. -/
def cfgU : List (Str × List FileConfig) :=
  [("pkg".data, [⟨"a.txt".data, 1, 0, []⟩, ⟨"b.txt".data, 1, 0, []⟩])]

/-- File system after upgrading `fsU` to version 2.0 everywhere. -/
def fsU' : FS := [("a.txt".data, "2.0\n".data), ("b.txt".data, "2.0\n".data)]

/-- Console output of the upgrade run on `fsU`/`cfgU`. -/
def outU : List OutLine :=
  [OutLine.upgrading "pkg".data (some "2.0".data),
   OutLine.updated "a.txt".data, OutLine.blank, OutLine.allMatch]

/-- Concrete one-line file system used to exhibit the out-of-range behavior of
extraction. -/
def fsC4 : FS := [("a.txt".data, "x\n".data)]

theorem joinAll_cons (l : Str) (ls : List Str) : joinAll (l :: ls) = l ++ joinAll ls := rfl

theorem splitKeepEnds_eq_nil : ∀ {s : Str}, splitKeepEnds s = [] → s = [] := by
  intro s h
  cases s with
  | nil => rfl
  | cons c rest =>
    simp only [splitKeepEnds] at h
    split at h
    · exact absurd h (by simp)
    · split at h <;> simp at h

theorem joinAll_splitKeepEnds : ∀ s : Str, joinAll (splitKeepEnds s) = s := by
  intro s
  induction s with
  | nil => rfl
  | cons c rest ih =>
    simp only [splitKeepEnds]
    split
    · next hc =>
      subst hc
      simpa [joinAll_cons] using ih
    · split
      · next hsp =>
        have : rest = [] := splitKeepEnds_eq_nil hsp
        subst this
        rfl
      · next l ls hsp =>
        rw [hsp] at ih
        simp only [joinAll_cons] at ih ⊢
        rw [List.cons_append, ih]

theorem splitKeepEnds_newline_append (A : Str) (hA : noNl A) (rest : Str) :
    splitKeepEnds (A ++ '\n' :: rest) = (A ++ ['\n']) :: splitKeepEnds rest := by
  induction A with
  | nil => simp [splitKeepEnds]
  | cons c A ih =>
    have hc : c ≠ '\n' := hA c (by simp)
    have hA' : noNl A := fun x hx => hA x (by simp [hx])
    have h2 := ih hA'
    show splitKeepEnds (c :: (A ++ '\n' :: rest)) = (c :: (A ++ ['\n'])) :: splitKeepEnds rest
    simp only [splitKeepEnds, if_neg hc, h2]

theorem splitKeepEnds_noNl (A : Str) (hA : noNl A) (hne : A ≠ []) :
    splitKeepEnds A = [A] := by
  induction A with
  | nil => exact absurd rfl hne
  | cons c A ih =>
    have hc : c ≠ '\n' := hA c (by simp)
    have hA' : noNl A := fun x hx => hA x (by simp [hx])
    simp only [splitKeepEnds, if_neg hc]
    cases hA0 : A with
    | nil => subst hA0; simp [splitKeepEnds]
    | cons a A' =>
      rw [← hA0, ih hA' (by simp [hA0])]

theorem WFlines_singleton_iff (l : Str) :
    WFlines [l] ↔ l ≠ [] ∧ ((∃ A, noNl A ∧ l = A ++ ['\n']) ∨ noNl l) := Iff.rfl

theorem WFlines_cons_cons_iff (l l2 : Str) (ls : List Str) :
    WFlines (l :: l2 :: ls) ↔ (∃ A, noNl A ∧ l = A ++ ['\n']) ∧ WFlines (l2 :: ls) :=
  Iff.rfl

theorem WFlines_cons_char {c : Char} (hc : c ≠ '\n') :
    ∀ {l : Str} {ls : List Str}, WFlines (l :: ls) → WFlines ((c :: l) :: ls) := by
  intro l ls h
  cases ls with
  | nil =>
    obtain ⟨hne, hsh⟩ := h
    refine ⟨by simp, ?_⟩
    cases hsh with
    | inl h1 =>
      obtain ⟨A, hA, hl⟩ := h1
      exact Or.inl ⟨c :: A, by
        intro x hx
        rcases List.mem_cons.mp hx with h | h
        · exact h ▸ hc
        · exact hA x h, by simp [hl]⟩
    | inr h2 =>
      refine Or.inr ?_
      intro x hx
      rcases List.mem_cons.mp hx with h | h
      · exact h ▸ hc
      · exact h2 x h
  | cons l2 ls' =>
    obtain ⟨⟨A, hA, hl⟩, htail⟩ := h
    exact ⟨⟨c :: A, by
      intro x hx
      rcases List.mem_cons.mp hx with h | h
      · exact h ▸ hc
      · exact hA x h, by simp [hl]⟩, htail⟩

theorem WFlines_split : ∀ s : Str, WFlines (splitKeepEnds s) := by
  intro s
  induction s with
  | nil => trivial
  | cons c rest ih =>
    simp only [splitKeepEnds]
    split
    · next hc =>
      cases hsp : splitKeepEnds rest with
      | nil => exact ⟨by simp, Or.inl ⟨[], by intro x hx; simp at hx, rfl⟩⟩
      | cons l ls =>
        rw [hsp] at ih
        exact ⟨⟨[], by intro x hx; simp at hx, rfl⟩, ih⟩
    · next hc =>
      split
      · exact ⟨by simp, Or.inr (by intro x hx; simp at hx; exact hx ▸ hc)⟩
      · next l ls hsp =>
        rw [hsp] at ih
        exact WFlines_cons_char hc ih

theorem splitKeepEnds_joinAll : ∀ {ls : List Str}, WFlines ls → splitKeepEnds (joinAll ls) = ls := by
  intro ls
  induction ls with
  | nil => intro _; rfl
  | cons l tail ih =>
    intro h
    cases tail with
    | nil =>
      obtain ⟨hne, hsh⟩ := h
      cases hsh with
      | inl h1 =>
        obtain ⟨A, hA, hl⟩ := h1
        subst hl
        show splitKeepEnds ((A ++ ['\n']) ++ []) = [A ++ ['\n']]
        rw [List.append_nil, show A ++ ['\n'] = A ++ '\n' :: [] from rfl,
          splitKeepEnds_newline_append A hA]
        rfl
      | inr h2 =>
        show splitKeepEnds (l ++ []) = [l]
        rw [List.append_nil]
        exact splitKeepEnds_noNl l h2 hne
    | cons l2 ls' =>
      obtain ⟨⟨A, hA, hl⟩, htail⟩ := h
      subst hl
      show splitKeepEnds ((A ++ ['\n']) ++ joinAll (l2 :: ls')) = _
      rw [List.append_assoc, List.singleton_append,
        splitKeepEnds_newline_append A hA, ih htail]

theorem WFlines_set : ∀ (ls : List Str) (i : Nat) (nl : Str), WFlines ls → i < ls.length →
    ((∃ B, noNl B ∧ nl = B ++ ['\n']) ∨ (i + 1 = ls.length ∧ noNl nl ∧ nl ≠ [])) →
    WFlines (ls.set i nl) := by
  intro ls
  induction ls with
  | nil => intro i nl _ hi; simp at hi
  | cons l tail ih =>
    intro i nl h hi hnl
    cases tail with
    | nil =>
      have hi0 : i = 0 := Nat.lt_one_iff.mp (by simpa using hi)
      subst hi0
      show WFlines [nl]
      refine ⟨?_, ?_⟩
      · cases hnl with
        | inl h1 => obtain ⟨B, _, hB⟩ := h1; simp [hB]
        | inr h2 => exact h2.2.2
      · cases hnl with
        | inl h1 => exact Or.inl h1
        | inr h2 => exact Or.inr h2.2.1
    | cons l2 ls' =>
      obtain ⟨hhead, htail⟩ := h
      cases i with
      | zero =>
        refine ⟨?_, htail⟩
        cases hnl with
        | inl h1 => exact h1
        | inr h2 =>
          exfalso
          have h3 := h2.1
          simp only [List.length_cons] at h3
          omega
      | succ j =>
        have hj : j < (l2 :: ls').length := by simpa using hi
        have : WFlines ((l2 :: ls').set j nl) := by
          refine ih j nl htail hj ?_
          cases hnl with
          | inl h1 => exact Or.inl h1
          | inr h2 =>
            refine Or.inr ⟨?_, h2.2⟩
            have := h2.1
            simp at this ⊢
            omega
        show WFlines (l :: (l2 :: ls').set j nl)
        cases hs : (l2 :: ls').set j nl with
        | nil =>
          have hlen := congrArg List.length hs
          simp at hlen
        | cons m ms =>
          rw [hs] at this
          exact ⟨hhead, this⟩

theorem getq_lt {α : Type} : ∀ {ls : List α} {i : Nat} {x : α}, ls.get? i = some x → i < ls.length := by
  intro ls
  induction ls with
  | nil => intro i x h; simp at h
  | cons a tl ih =>
    intro i x h
    cases i with
    | zero => simp
    | succ j =>
      have h2 := @ih j x (by simpa using h)
      simpa using Nat.succ_lt_succ h2

theorem getq_set_self {α : Type} :
    ∀ (ls : List α) (i : Nat) (x : α), i < ls.length → (ls.set i x).get? i = some x := by
  intro ls
  induction ls with
  | nil => intro i x hi; simp at hi
  | cons a tl ih =>
    intro i x hi
    cases i with
    | zero => rfl
    | succ j => simpa using ih j x (by simpa using hi)

theorem joinAll_take_drop : ∀ (ls : List Str) (i : Nat) (tgt : Str),
    ls.get? i = some tgt →
    joinAll ls = joinAll (ls.take i) ++ tgt ++ joinAll (ls.drop (i + 1)) := by
  intro ls
  induction ls with
  | nil => intro i tgt h; simp at h
  | cons l tl ih =>
    intro i tgt h
    cases i with
    | zero =>
      simp only [List.get?] at h
      cases h
      simp [joinAll_cons, joinAll]
    | succ j =>
      have := ih j tgt (by simpa using h)
      simp only [List.take_succ_cons, List.drop_succ_cons, joinAll_cons, this]
      simp [List.append_assoc]

theorem joinAll_set : ∀ (ls : List Str) (i : Nat) (x : Str), i < ls.length →
    joinAll (ls.set i x) = joinAll (ls.take i) ++ x ++ joinAll (ls.drop (i + 1)) := by
  intro ls
  induction ls with
  | nil => intro i x hi; simp at hi
  | cons l tl ih =>
    intro i x hi
    cases i with
    | zero => simp [joinAll_cons, joinAll]
    | succ j =>
      have h2 := ih j x (by simpa using hi)
      rw [show (l :: tl).set (j + 1) x = l :: tl.set j x from rfl, joinAll_cons, h2,
        List.take_succ_cons, List.drop_succ_cons, joinAll_cons]
      simp [List.append_assoc]

theorem drop_append_len {α : Type} :
    ∀ (P R : List α) (m : Nat), (P ++ R).drop (P.length + m) = R.drop m := by
  intro P
  induction P with
  | nil => intro R m; simp
  | cons p P ih =>
    intro R m
    have hl : (p :: P).length + m = (P.length + m) + 1 := by
      simp only [List.length_cons]
      omega
    rw [hl]
    show (P ++ R).drop (P.length + m) = R.drop m
    exact ih R m

theorem drop_append_le {α : Type} :
    ∀ (X Y : List α) (m : Nat), m ≤ X.length → (X ++ Y).drop m = X.drop m ++ Y := by
  intro X
  induction X with
  | nil => intro Y m h; simp at h; simp [h]
  | cons x X ih =>
    intro Y m h
    cases m with
    | zero => rfl
    | succ j => exact ih Y j (by simpa using h)

theorem take_append_le {α : Type} :
    ∀ (X Y : List α) (n : Nat), n ≤ X.length → (X ++ Y).take n = X.take n := by
  intro X
  induction X with
  | nil => intro Y n h; simp at h; simp [h]
  | cons x X ih =>
    intro Y n h
    cases n with
    | zero => rfl
    | succ j =>
      show x :: (X ++ Y).take j = x :: X.take j
      rw [ih Y j (by simpa using h)]

theorem take_append_len {α : Type} : ∀ (P R : List α), (P ++ R).take P.length = P := by
  intro P R
  rw [take_append_le P R P.length (Nat.le_refl _), List.take_length]

theorem drop_append_len0 {α : Type} : ∀ (P R : List α), (P ++ R).drop P.length = R := by
  intro P R
  have h := drop_append_len P R 0
  rw [Nat.add_zero, List.drop_zero] at h
  exact h

theorem matchAt_take {hay e : Str} {j : Nat} (h : matchAt hay e j = true) :
    (hay.drop j).take e.length = e := by
  simpa [matchAt] using h

theorem matchAt_le {hay e : Str} {j : Nat} (he : e ≠ []) (h : matchAt hay e j = true) :
    j + e.length ≤ hay.length := by
  have ht := matchAt_take h
  have hlen := congrArg List.length ht
  simp only [List.length_take, List.length_drop] at hlen
  have hel : 1 ≤ e.length := by
    cases e with
    | nil => exact absurd rfl he
    | cons a as => simp
  omega

theorem matchAt_oob {hay e : Str} {j : Nat} (he : e ≠ []) (h : hay.length < j + e.length) :
    matchAt hay e j = false := by
  cases hm : matchAt hay e j with
  | false => rfl
  | true => exact absurd (matchAt_le he hm) (by omega)

theorem matchAt_drop_eq {hay e : Str} {j : Nat} (h : matchAt hay e j = true) :
    hay.drop j = e ++ hay.drop (j + e.length) := by
  have ht := matchAt_take h
  calc hay.drop j = (hay.drop j).take e.length ++ (hay.drop j).drop e.length :=
        (List.take_append_drop _ _).symm
    _ = e ++ hay.drop (j + e.length) := by
        rw [ht, List.drop_drop, Nat.add_comm]

theorem matchAt_append_left {X Y e : Str} {m : Nat} (h : m + e.length ≤ X.length) :
    matchAt (X ++ Y) e m = matchAt X e m := by
  unfold matchAt
  rw [drop_append_le X Y m (by omega),
    take_append_le (X.drop m) Y e.length (by simp [List.length_drop]; omega)]

theorem matchAt_shift {P R e : Str} {m : Nat} :
    matchAt (P ++ R) e (P.length + m) = matchAt R e m := by
  unfold matchAt
  rw [drop_append_len P R m]

theorem pyFindGo_some {hay e : Str} :
    ∀ (fuel j0 j : Nat), pyFindGo hay e j0 fuel = some j →
      j0 ≤ j ∧ j < j0 + fuel ∧ matchAt hay e j = true ∧
        ∀ k, j0 ≤ k → k < j → matchAt hay e k = false := by
  intro fuel
  induction fuel with
  | zero => intro j0 j h; simp [pyFindGo] at h
  | succ f ih =>
    intro j0 j h
    simp only [pyFindGo] at h
    split at h
    · next hm =>
      cases h
      refine ⟨Nat.le_refl _, by omega, hm, ?_⟩
      intro k h1 h2
      exact absurd h2 (by omega)
    · next hm =>
      obtain ⟨h1, h2, h3, h4⟩ := ih (j0 + 1) j h
      refine ⟨by omega, by omega, h3, ?_⟩
      intro k hk1 hk2
      rcases Nat.eq_or_lt_of_le hk1 with he | hlt
      · subst he
        simpa using hm
      · exact h4 k hlt hk2

theorem pyFindGo_none {hay e : Str} :
    ∀ (fuel j0 : Nat), pyFindGo hay e j0 fuel = none →
      ∀ k, j0 ≤ k → k < j0 + fuel → matchAt hay e k = false := by
  intro fuel
  induction fuel with
  | zero => intro j0 _ k h1 h2; omega
  | succ f ih =>
    intro j0 h k h1 h2
    simp only [pyFindGo] at h
    split at h
    · exact absurd h (by simp)
    · next hm =>
      rcases Nat.eq_or_lt_of_le h1 with he | hlt
      · subst he
        simpa using hm
      · exact ih (j0 + 1) h k hlt (by omega)

theorem pyFindGo_of_match {hay e : Str} :
    ∀ (fuel j0 j : Nat), j0 ≤ j → j < j0 + fuel → matchAt hay e j = true →
      (∀ k, j0 ≤ k → k < j → matchAt hay e k = false) →
      pyFindGo hay e j0 fuel = some j := by
  intro fuel
  induction fuel with
  | zero => intro j0 j h1 h2; omega
  | succ f ih =>
    intro j0 j h1 h2 h3 h4
    simp only [pyFindGo]
    rcases Nat.eq_or_lt_of_le h1 with he | hlt
    · rw [← he] at h3
      rw [if_pos h3, he]
    · have hj0 : matchAt hay e j0 = false := h4 j0 (Nat.le_refl _) hlt
      rw [if_neg (by simp [hj0])]
      exact ih (j0 + 1) j hlt (by omega) h3 (fun k hk1 hk2 => h4 k (by omega) hk2)

theorem pyFind_some {hay e : Str} {s j : Nat} (h : pyFind hay e s = some j) :
    s ≤ j ∧ j ≤ hay.length ∧ matchAt hay e j = true ∧
      ∀ k, s ≤ k → k < j → matchAt hay e k = false := by
  obtain ⟨h1, h2, h3, h4⟩ := pyFindGo_some _ _ _ h
  refine ⟨h1, ?_, h3, h4⟩
  by_cases hs : s ≤ hay.length
  · omega
  · exfalso
    have : hay.length + 1 - s = 0 := by omega
    rw [pyFind, this] at h
    simp [pyFindGo] at h

theorem pyFind_none {hay e : Str} {s : Nat} (h : pyFind hay e s = none) :
    ∀ k, s ≤ k → k ≤ hay.length → matchAt hay e k = false := by
  intro k h1 h2
  exact pyFindGo_none _ _ h k h1 (by omega)

theorem pyFind_eq_some {hay e : Str} {s j : Nat} (h1 : s ≤ j) (h2 : j ≤ hay.length)
    (h3 : matchAt hay e j = true) (h4 : ∀ k, s ≤ k → k < j → matchAt hay e k = false) :
    pyFind hay e s = some j :=
  pyFindGo_of_match _ _ _ h1 (by omega) h3 h4

theorem pyFind_eq_none {hay e : Str} {s : Nat}
    (h : ∀ k, s ≤ k → k ≤ hay.length → matchAt hay e k = false) :
    pyFind hay e s = none := by
  cases hr : pyFind hay e s with
  | none => rfl
  | some j =>
    obtain ⟨h1, h2, h3, _⟩ := pyFind_some hr
    rw [h j h1 h2] at h3
    exact absurd h3 (by simp)

theorem beats_append_right : ∀ (as ts : List Nat), beats (as ++ ts) as = false := by
  intro as
  induction as with
  | nil =>
    intro ts
    cases ts with
    | nil => rfl
    | cons t ts' => rfl
  | cons a as ih =>
    intro ts
    show beats (a :: (as ++ ts)) (a :: as) = false
    simp only [beats, lt_irrefl, if_false]
    exact ih ts

theorem beats_append_left : ∀ (as ts : List Nat), beats as (as ++ ts) = false := by
  intro as
  induction as with
  | nil =>
    intro ts
    cases ts with
    | nil => rfl
    | cons t ts' => rfl
  | cons a as ih =>
    intro ts
    show beats (a :: as) (a :: (as ++ ts)) = false
    simp only [beats, lt_irrefl, if_false]
    exact ih ts

theorem highestScan_all_empty :
    ∀ (vs : List Str) (st : Option (List Nat × Str)), (∀ v ∈ vs, tokenize v = []) →
      highestScan (vs.map some) st = some (Option.map Prod.snd st) := by
  intro vs
  induction vs with
  | nil => intro st _; rfl
  | cons v rest ih =>
    intro st h
    have hv : tokenize v = [] := h v (by simp)
    show highestScan (some v :: rest.map some) st = _
    simp only [highestScan, hv, List.isEmpty_nil, if_true]
    exact ih st (fun w hw => h w (by simp [hw]))

theorem highestScan_mem :
    ∀ (vs : List Str) (st : Option (List Nat × Str)) (r : Str),
      highestScan (vs.map some) st = some (some r) →
      (∃ p, st = some p ∧ p.2 = r) ∨ r ∈ vs := by
  intro vs
  induction vs with
  | nil =>
    intro st r h
    cases st with
    | none => simp [highestScan] at h
    | some p =>
      obtain ⟨pa, pb⟩ := p
      have h2 : some (some pb) = some (some r) := h
      have hpb : pb = r := by
        injection h2 with h3
        injection h3
      exact Or.inl ⟨(pa, pb), rfl, hpb⟩
  | cons v rest ih =>
    intro st r h
    show _ ∨ r ∈ v :: rest
    have hstep : highestScan (some v :: rest.map some) st = some (some r) := h
    simp only [highestScan] at hstep
    by_cases hv : (tokenize v).isEmpty
    · rw [if_pos hv] at hstep
      rcases ih st r hstep with h1 | h2
      · exact Or.inl h1
      · exact Or.inr (by simp [h2])
    · rw [if_neg hv] at hstep
      cases st with
      | none =>
        rcases ih _ r hstep with h1 | h2
        · obtain ⟨p, hp, hp2⟩ := h1
          cases hp
          exact Or.inr (by simp [← hp2])
        · exact Or.inr (by simp [h2])
      | some q =>
        obtain ⟨best, bs⟩ := q
        have h3 : (if beats (tokenize v) best then
              highestScan (rest.map some) (some (tokenize v, v))
            else highestScan (rest.map some) (some (best, bs))) = some (some r) := hstep
        by_cases hb : beats (tokenize v) best
        · rw [if_pos hb] at h3
          rcases ih _ r h3 with h1 | h2
          · obtain ⟨p, hp, hp2⟩ := h1
            cases hp
            exact Or.inr (by simp [← hp2])
          · exact Or.inr (by simp [h2])
        · rw [if_neg hb] at h3
          rcases ih _ r h3 with h1 | h2
          · obtain ⟨p, hp, hp2⟩ := h1
            cases hp
            exact Or.inl ⟨(best, bs), rfl, hp2⟩
          · exact Or.inr (by simp [h2])

/-- C1: `get_highest_version` tokenizes each string into its maximal
decimal-digit runs, compares token vectors position by position by integer
comparison (`"10"` beats `"9"`), and returns the original string of the
winning candidate; on `{"a.txt": "1.2.0", "b.txt": "1.3.0"}` it returns
`"1.3.0"`, and when no string has a digit it returns Python `None`. -/
theorem C1_spec :
    get_highest_version [some "1.2.0".data, some "1.3.0".data] = some (some "1.3.0".data)
    ∧ get_highest_version [some "9".data, some "10".data] = some (some "10".data)
    ∧ get_highest_version [some "10".data, some "9".data] = some (some "10".data)
    ∧ (∀ vs : List Str, (∀ v ∈ vs, tokenize v = []) →
        get_highest_version (vs.map some) = some none)
    ∧ (∀ (vs : List Str) (r : Str),
        get_highest_version (vs.map some) = some (some r) → r ∈ vs) := by
  refine ⟨rfl, rfl, rfl, ?_, ?_⟩
  · intro vs h
    exact highestScan_all_empty vs none h
  · intro vs r h
    rcases highestScan_mem vs none r h with h1 | h2
    · obtain ⟨p, hp, _⟩ := h1
      cases hp
    · exact h2

theorem C1_witness : get_highest_version ([ "abc".data ].map some) = some none :=
  C1_spec.2.2.2.1 ["abc".data] (by decide)

/-- C2: in the scan of `get_highest_version`, a candidate whose token vector
is prefix-related to the current best (either one extending the other)
never displaces the current best; in particular `[1,2,5]` does not beat
`[1,2]` and vice versa. -/
theorem C2_spec :
    (∀ (rest : List (Option Str)) (best : List Nat) (bs v : Str),
        ((∃ ts, tokenize v = best ++ ts) ∨ (∃ ts, best = tokenize v ++ ts)) →
        highestScan (some v :: rest) (some (best, bs)) =
          highestScan rest (some (best, bs)))
    ∧ beats [1, 2, 5] [1, 2] = false ∧ beats [1, 2] [1, 2, 5] = false := by
  refine ⟨?_, rfl, rfl⟩
  intro rest best bs v h
  have hb : beats (tokenize v) best = false := by
    rcases h with ⟨ts, hts⟩ | ⟨ts, hts⟩
    · rw [hts]
      exact beats_append_right best ts
    · rw [hts]
      exact beats_append_left (tokenize v) ts
  show (if (tokenize v).isEmpty then highestScan rest (some (best, bs))
    else if beats (tokenize v) best then highestScan rest (some (tokenize v, v))
    else highestScan rest (some (best, bs))) = highestScan rest (some (best, bs))
  rw [hb]
  split <;> rfl

theorem C2_witness :
    highestScan [some "1.2.5".data] (some ([1, 2], "1.2".data)) =
      highestScan [] (some ([1, 2], "1.2".data)) :=
  C2_spec.1 [] [1, 2] "1.2".data "1.2.5".data (Or.inl ⟨[5], by decide⟩)

theorem vmGo_some :
    ∀ (l : List Str) (b : Str), vmGo (some b) (l.map some) = true ↔ ∀ w ∈ l, w = b := by
  intro l
  induction l with
  | nil => intro b; simp [vmGo]
  | cons v rest ih =>
    intro b
    show (if some v = some b then vmGo (some b) (rest.map some) else false) = true ↔ _
    by_cases hv : v = b
    · rw [if_pos (by rw [hv]), ih b]
      constructor
      · intro h w hw
        rcases List.mem_cons.mp hw with h1 | h1
        · exact h1 ▸ hv
        · exact h w h1
      · intro h w hw
        exact h w (by simp [hw])
    · rw [if_neg (by simpa using hv)]
      constructor
      · intro h; exact absurd h (by simp)
      · intro h
        exact absurd (h v (by simp)) hv

/-- C8: `versions_match` is true iff all values in the mapping are pairwise
identical strings (equivalently, all equal to the first value, with the
result independent of which value serves as the baseline); the empty mapping
is vacuously true. -/
theorem C8_spec :
    versions_match [] = true
    ∧ ∀ vs : List Str,
        (versions_match (vs.map some) = true ↔ ∀ v ∈ vs, ∀ w ∈ vs, v = w) := by
  refine ⟨rfl, ?_⟩
  intro vs
  cases vs with
  | nil => simp [versions_match, vmGo]
  | cons v rest =>
    show vmGo none (some v :: rest.map some) = true ↔ _
    have : vmGo none (some v :: rest.map some) = vmGo (some v) (rest.map some) := rfl
    rw [this, vmGo_some rest v]
    constructor
    · intro h x hx y hy
      have hxv : x = v := by
        rcases List.mem_cons.mp hx with h1 | h1
        · exact h1
        · exact h x h1
      have hyv : y = v := by
        rcases List.mem_cons.mp hy with h1 | h1
        · exact h1
        · exact h y h1
      rw [hxv, hyv]
    · intro h w hw
      exact h w (by simp [hw]) v (by simp)

theorem getq_eq_none {α : Type} : ∀ (ls : List α) (i : Nat), ls.length ≤ i → ls.get? i = none := by
  intro ls
  induction ls with
  | nil => intro i _; rfl
  | cons a tl ih =>
    intro i h
    cases i with
    | zero => simp at h
    | succ j => exact ih j (by simpa using h)

theorem extractFromLine_no_end (line : Str) (pos : Nat) :
    extractFromLine line pos [] = (line.take (line.length - 1)).drop pos := by
  unfold extractFromLine
  split
  · rfl
  · next h => exact absurd rfl h

theorem extractFromLine_end_none {line endS : Str} {pos : Nat} (hend : endS ≠ [])
    (hfind : pyFind line endS pos = none) :
    extractFromLine line pos endS = (line.take (line.length - 1)).drop pos := by
  unfold extractFromLine
  split
  · next h => exact absurd h hend
  · rw [hfind]

theorem extractFromLine_end_some {line endS : Str} {pos j : Nat} (hend : endS ≠ [])
    (hfind : pyFind line endS pos = some j) :
    extractFromLine line pos endS = (line.take j).drop pos := by
  unfold extractFromLine
  split
  · next h => exact absurd h hend
  · rw [hfind]

theorem rewriteLine_no_end (line : Str) (pos : Nat) (ver : Str) :
    rewriteLine line pos [] ver = line.take pos ++ ver ++ ['\n'] := by
  unfold rewriteLine
  split
  · rfl
  · next h => exact absurd rfl h

theorem rewriteLine_end_none {line endS : Str} {pos : Nat} (ver : Str) (hend : endS ≠ [])
    (hfind : pyFind line endS pos = none) :
    rewriteLine line pos endS ver = line.take pos ++ ver ++ ['\n'] := by
  unfold rewriteLine
  split
  · next h => exact absurd h hend
  · rw [hfind]

theorem rewriteLine_end_some {line endS : Str} {pos j : Nat} (ver : Str) (hend : endS ≠ [])
    (hfind : pyFind line endS pos = some j) :
    rewriteLine line pos endS ver = line.take pos ++ ver ++ line.drop j := by
  unfold rewriteLine
  split
  · next h => exact absurd h hend
  · rw [hfind]

theorem get_version_str_of_line {content : Str} {ln pos : Nat} {endS line : Str}
    (hsel : selectLine (splitKeepEnds content) ln = some line) :
    get_version_str content ln pos endS = some (extractFromLine line pos endS) := by
  simp only [get_version_str, hsel]

theorem get_version_str_of_none {content : Str} {ln pos : Nat} {endS : Str}
    (hsel : selectLine (splitKeepEnds content) ln = none) :
    get_version_str content ln pos endS = none := by
  simp only [get_version_str, hsel]

theorem set_version_str_eq {content : Str} {ln pos : Nat} {endS ver : Str} {i : Nat}
    {line : Str} (hidx : pyIdx (splitKeepEnds content).length ln = some i)
    (hget : (splitKeepEnds content).get? i = some line) :
    set_version_str content ln pos endS ver =
      some (joinAll ((splitKeepEnds content).set i (rewriteLine line pos endS ver))) := by
  simp only [set_version_str, hidx, hget]

theorem get_version_str_io_some {fs : FS} {f content : Str} {ln pos : Nat} {endS : Str}
    (hl : lookupFS fs f = some content) :
    get_version_str_io fs f ln pos endS = some (get_version_str content ln pos endS) := by
  simp only [get_version_str_io, hl]

theorem get_version_str_io_none {fs : FS} {f : Str} {ln pos : Nat} {endS : Str}
    (hl : lookupFS fs f = none) :
    get_version_str_io fs f ln pos endS = none := by
  simp only [get_version_str_io, hl]

/-- C4 (counterexample): with a one-line file, requesting line 2 makes
`get_version_str` return a value (Python `None`, here `some none`) instead of
raising an error (`none` in this model), refuting the claim that an
out-of-range line raises a fatal I/O error. -/
theorem C4_cex :
    get_version_str_io fsC4 "a.txt".data 2 0 [] = some none ∧
      get_version_str_io fsC4 "a.txt".data 2 0 [] ≠ none := by
  refine ⟨rfl, ?_⟩
  intro h
  rw [show get_version_str_io fsC4 "a.txt".data 2 0 [] = some none from rfl] at h
  exact Option.noConfusion h

/-- C4 (amended): when the requested 1-based line exceeds the number of lines
(and the file opens), `get_version_str` returns Python `None` without raising;
extraction raises only when the file cannot be opened. -/
theorem C4_spec : ∀ (fs : FS) (f content : Str) (ln pos : Nat) (endS : Str),
    (lookupFS fs f = some content → (splitKeepEnds content).length < ln →
      get_version_str_io fs f ln pos endS = some none)
    ∧ (lookupFS fs f = none → get_version_str_io fs f ln pos endS = none) := by
  intro fs f content ln pos endS
  constructor
  · intro hl hlen
    have hsel : selectLine (splitKeepEnds content) ln = none := by
      unfold selectLine
      rw [if_neg (by omega)]
      exact getq_eq_none _ _ (by omega)
    rw [get_version_str_io_some hl, get_version_str_of_none hsel]
  · intro hl
    exact get_version_str_io_none hl

theorem C4_witness : get_version_str_io fsC4 "a.txt".data 9 0 [] = some none :=
  (C4_spec fsC4 "a.txt".data "x\n".data 9 0 []).1 rfl (by decide)

theorem take_sub_one_eq_dropLast : ∀ l : Str, l.take (l.length - 1) = l.dropLast := by
  intro l
  induction l with
  | nil => rfl
  | cons a tl ih =>
    cases tl with
    | nil => rfl
    | cons b tl2 =>
      have h2 := ih
      simp only [List.length_cons, Nat.add_sub_cancel] at h2 ⊢
      rw [List.take_succ_cons, h2]
      rfl

/-- C7 (counterexample): on the file `"abc"` whose single line has no trailing
newline, extraction with no terminator returns `"ab"` — the final character is
removed even though it is not a newline — refuting the claim that the full
content is returned unchanged in that case. -/
theorem C7_cex :
    get_version_str "abc".data 1 0 [] = some "ab".data ∧
      get_version_str "abc".data 1 0 [] ≠ some "abc".data := by
  refine ⟨rfl, ?_⟩
  intro h
  rw [show get_version_str "abc".data 1 0 [] = some "ab".data from rfl] at h
  simp at h

/-- C7 (amended): with no terminator, extraction returns the selected line
from the column with its last character removed (`line[position:-1]`): this
strips the trailing newline when the line ends with one, but on a final line
without a newline it drops the last content character instead. -/
theorem C7_spec : ∀ (content : Str) (ln pos : Nat) (line : Str),
    selectLine (splitKeepEnds content) ln = some line →
    get_version_str content ln pos [] = some (line.dropLast.drop pos) := by
  intro content ln pos line h
  rw [get_version_str_of_line h, extractFromLine_no_end, take_sub_one_eq_dropLast]

theorem C7_witness : get_version_str "ver: 1.2\n".data 1 5 [] = some "1.2".data := by
  have h := C7_spec "ver: 1.2\n".data 1 5 "ver: 1.2\n".data rfl
  rw [h]
  rfl

/-- C6: when a terminator is given but does not occur in the target line at or
after the column, extraction returns exactly what the no-terminator extraction
returns, and rewriting produces exactly the file the no-terminator rewrite
produces. -/
theorem C6_spec : ∀ (content : Str) (ln pos : Nat) (endS ver line : Str), 1 ≤ ln →
    (splitKeepEnds content).get? (ln - 1) = some line →
    endS ≠ [] → pyFind line endS pos = none →
    get_version_str content ln pos endS = get_version_str content ln pos []
    ∧ set_version_str content ln pos endS ver = set_version_str content ln pos [] ver := by
  intro content ln pos endS ver line hln hget hend hfind
  have hsel : selectLine (splitKeepEnds content) ln = some line := by
    unfold selectLine
    rw [if_neg (by omega)]
    exact hget
  have hex : extractFromLine line pos endS = extractFromLine line pos [] := by
    rw [extractFromLine_end_none hend hfind, extractFromLine_no_end]
  have hrw : rewriteLine line pos endS ver = rewriteLine line pos [] ver := by
    rw [rewriteLine_end_none ver hend hfind, rewriteLine_no_end]
  have hidx : pyIdx (splitKeepEnds content).length ln = some (ln - 1) := by
    unfold pyIdx
    rw [if_neg (by omega), if_pos (getq_lt hget)]
  constructor
  · rw [get_version_str_of_line hsel, get_version_str_of_line hsel, hex]
  · rw [set_version_str_eq hidx hget, set_version_str_eq hidx hget, hrw]

/-- C5: rewriting modifies only the targeted 1-based line.  The file
decomposes as prefix-lines ++ target ++ suffix-lines, and the rewritten file
keeps the prefix and suffix byte-for-byte, replacing only the target line;
when the terminator is found at index `j ≥ column`, the rewritten line keeps
everything of the target from index `j` on (starting with the terminator text
itself) unchanged as its suffix. -/
theorem C5_spec : ∀ (content : Str) (ln pos : Nat) (endS ver content' tgt : Str),
    1 ≤ ln →
    (splitKeepEnds content).get? (ln - 1) = some tgt →
    set_version_str content ln pos endS ver = some content' →
    content = joinAll ((splitKeepEnds content).take (ln - 1)) ++ tgt ++
        joinAll ((splitKeepEnds content).drop ln)
    ∧ content' = joinAll ((splitKeepEnds content).take (ln - 1)) ++
        rewriteLine tgt pos endS ver ++ joinAll ((splitKeepEnds content).drop ln)
    ∧ ∀ j, endS ≠ [] → pyFind tgt endS pos = some j →
        rewriteLine tgt pos endS ver = tgt.take pos ++ ver ++ tgt.drop j
        ∧ (tgt.drop j).take endS.length = endS := by
  intro content ln pos endS ver content' tgt hln hget hset
  have hlt := getq_lt hget
  have hidx : pyIdx (splitKeepEnds content).length ln = some (ln - 1) := by
    unfold pyIdx
    rw [if_neg (by omega), if_pos hlt]
  rw [set_version_str_eq hidx hget] at hset
  have hc' : content' =
      joinAll ((splitKeepEnds content).set (ln - 1) (rewriteLine tgt pos endS ver)) := by
    injection hset with h
    exact h.symm
  have hln1 : ln - 1 + 1 = ln := by omega
  refine ⟨?_, ?_, ?_⟩
  · have hdec := joinAll_take_drop (splitKeepEnds content) (ln - 1) tgt hget
    rw [hln1] at hdec
    exact ((joinAll_splitKeepEnds content).symm).trans hdec
  · have hset2 := joinAll_set (splitKeepEnds content) (ln - 1)
      (rewriteLine tgt pos endS ver) hlt
    rw [hln1] at hset2
    rw [hc', hset2]
  · intro j hend hfind
    obtain ⟨_, _, h3, _⟩ := pyFind_some hfind
    exact ⟨rewriteLine_end_some ver hend hfind, matchAt_take h3⟩

theorem C5_witness :
    "x=1.0;end\n".data =
      joinAll ((splitKeepEnds "x=1.0;end\n".data).take 0) ++ "x=1.0;end\n".data ++
        joinAll ((splitKeepEnds "x=1.0;end\n".data).drop 1)
    ∧ rewriteLine "x=1.0;end\n".data 2 ";".data "2.0".data =
        "x=1.0;end\n".data.take 2 ++ "2.0".data ++ "x=1.0;end\n".data.drop 5 := by
  have h := C5_spec "x=1.0;end\n".data 1 2 ";".data "2.0".data "x=2.0;end\n".data
    "x=1.0;end\n".data (by decide) rfl rfl
  exact ⟨h.1, (h.2.2 5 (by decide) rfl).1⟩

theorem noNl_append {a b : Str} (ha : noNl a) (hb : noNl b) : noNl (a ++ b) := by
  intro c hc
  rcases List.mem_append.mp hc with h | h
  · exact ha c h
  · exact hb c h

theorem noNl_take {l : Str} (h : noNl l) (n : Nat) : noNl (l.take n) :=
  fun c hc => h c (List.take_subset n l hc)

theorem noNl_drop {l : Str} (h : noNl l) (n : Nat) : noNl (l.drop n) :=
  fun c hc => h c (List.drop_subset n l hc)

theorem WFlines_get_shape : ∀ {ls : List Str} {i : Nat} {l : Str}, WFlines ls →
    ls.get? i = some l →
    (∃ A, noNl A ∧ l = A ++ ['\n']) ∨ (i + 1 = ls.length ∧ noNl l ∧ l ≠ []) := by
  intro ls
  induction ls with
  | nil => intro i l _ hg; simp at hg
  | cons l0 tail ih =>
    intro i l hwf hg
    cases tail with
    | nil =>
      cases i with
      | zero =>
        have hl : l0 = l := by simpa using hg
        subst hl
        obtain ⟨hne, hsh⟩ := hwf
        rcases hsh with h1 | h2
        · exact Or.inl h1
        · exact Or.inr ⟨by simp, h2, hne⟩
      | succ j => simp at hg
    | cons l2 ls' =>
      obtain ⟨hhead, htail⟩ := hwf
      cases i with
      | zero =>
        have hl : l0 = l := by simpa using hg
        subst hl
        exact Or.inl hhead
      | succ j =>
        have hg' : (l2 :: ls').get? j = some l := by simpa using hg
        rcases ih htail hg' with h1 | h2
        · exact Or.inl h1
        · refine Or.inr ⟨?_, h2.2⟩
          have h3 := h2.1
          simp only [List.length_cons] at h3 ⊢
          omega

theorem take_PV (P ver rest : Str) (pos : Nat) (hP : P.length = pos) :
    (((P ++ ver) ++ rest).take (pos + ver.length)).drop pos = ver := by
  have hX : (P ++ ver).length = pos + ver.length := by simp [hP]
  rw [← hX, take_append_len, ← hP, drop_append_len0]

theorem roundtrip_core {content : Str} {ln pos : Nat} {endS ver line NL : Str}
    (hln : ln ≠ 0)
    (hget : (splitKeepEnds content).get? (ln - 1) = some line)
    (hnl_eq : rewriteLine line pos endS ver = NL)
    (hshape : (∃ B, noNl B ∧ NL = B ++ ['\n']) ∨
      ((ln - 1) + 1 = (splitKeepEnds content).length ∧ noNl NL ∧ NL ≠ []))
    (hex : extractFromLine NL pos endS = ver) :
    (set_version_str content ln pos endS ver).bind
      (fun c' => get_version_str c' ln pos endS) = some ver := by
  have hlt := getq_lt hget
  have hidx : pyIdx (splitKeepEnds content).length ln = some (ln - 1) := by
    unfold pyIdx
    rw [if_neg hln, if_pos hlt]
  have hset : set_version_str content ln pos endS ver =
      some (joinAll ((splitKeepEnds content).set (ln - 1) NL)) := by
    rw [set_version_str_eq hidx hget, hnl_eq]
  have hwf' : WFlines ((splitKeepEnds content).set (ln - 1) NL) :=
    WFlines_set _ _ _ (WFlines_split content) hlt hshape
  have hsj : splitKeepEnds (joinAll ((splitKeepEnds content).set (ln - 1) NL)) =
      (splitKeepEnds content).set (ln - 1) NL := splitKeepEnds_joinAll hwf'
  have hsel' : selectLine
      (splitKeepEnds (joinAll ((splitKeepEnds content).set (ln - 1) NL))) ln = some NL := by
    unfold selectLine
    rw [if_neg hln, hsj]
    exact getq_set_self _ _ _ hlt
  rw [hset]
  show get_version_str (joinAll ((splitKeepEnds content).set (ln - 1) NL)) ln pos endS
    = some ver
  rw [get_version_str_of_line hsel', hex]

/-- C3 (counterexample): the round-trip fails when the new version itself
contains the terminator: rewriting `"v=1.2.0;\n"` at column 2 with terminator
`";"` and new version `"1;2"` then extracting yields `"1"`, not `"1;2"`. -/
theorem C3_cex :
    (set_version_str "v=1.2.0;\n".data 1 2 ";".data "1;2".data).bind
        (fun c' => get_version_str c' 1 2 ";".data) = some "1".data
    ∧ "1".data ≠ "1;2".data := by
  refine ⟨rfl, ?_⟩
  intro h
  simp at h

/-- C3 (amended): the round-trip `extract ∘ rewrite = newVersion` holds for
every file state and location provided the new version contains no newline
and either (terminator case) the terminator is found in the target line at or
after the column and the first occurrence of the terminator in
`newVersion ++ terminator` is at index `|newVersion|` (so the rewritten text
cannot produce an earlier terminator match), or (end-of-line case) the column
lies within the line, the kept prefix contains no newline, and — when a
terminator was given but not found — the terminator does not occur in
`newVersion ++ "\n"`.  Without these provisos extraction can return a proper
prefix of the new version, as the counterexample shows. -/
theorem C3_spec : ∀ (content : Str) (ln pos : Nat) (endS ver line : Str),
    selectLine (splitKeepEnds content) ln = some line →
    noNl ver →
    ((endS ≠ [] ∧ (∃ j, pyFind line endS pos = some j) ∧
        pyFind (ver ++ endS) endS 0 = some ver.length)
     ∨ ((endS = [] ∨ (endS ≠ [] ∧ pyFind line endS pos = none ∧
          pyFind (ver ++ ['\n']) endS 0 = none))
        ∧ pos ≤ line.length ∧ noNl (line.take pos))) →
    (set_version_str content ln pos endS ver).bind
      (fun c' => get_version_str c' ln pos endS) = some ver := by
  intro content ln pos endS ver line hsel hver hcase
  have hln : ln ≠ 0 := by
    intro h0
    unfold selectLine at hsel
    rw [if_pos h0] at hsel
    exact Option.noConfusion hsel
  have hget : (splitKeepEnds content).get? (ln - 1) = some line := by
    unfold selectLine at hsel
    rwa [if_neg hln] at hsel
  have hwf0 : WFlines (splitKeepEnds content) := WFlines_split content
  rcases hcase with ⟨hend, ⟨j, hfind⟩, hvfind⟩ | ⟨hsub, hposle, hpreNl⟩
  · -- terminator found in the target line
    obtain ⟨hj1, hj2, hj3, _⟩ := pyFind_some hfind
    have hepos : 1 ≤ endS.length := by
      cases endS with
      | nil => exact absurd rfl hend
      | cons a as => simp
    have hjlen : j + endS.length ≤ line.length := matchAt_le hend hj3
    have hposle : pos ≤ line.length := by omega
    have hPlen : (line.take pos).length = pos := by
      rw [List.length_take]
      omega
    have hdropj : line.drop j = endS ++ line.drop (j + endS.length) := matchAt_drop_eq hj3
    obtain ⟨hv1, hv2, hv3, hv4⟩ := pyFind_some hvfind
    have hnl_eq : rewriteLine line pos endS ver =
        (line.take pos ++ ver) ++ line.drop j := rewriteLine_end_some ver hend hfind
    -- the extraction on the rewritten line finds the terminator exactly after ver
    have hm0 : matchAt (line.drop j) endS 0 = true := by
      unfold matchAt
      rw [List.drop_zero]
      exact decide_eq_true (matchAt_take hj3)
    have hmB : matchAt ((line.take pos ++ ver) ++ line.drop j) endS (pos + ver.length)
        = true := by
      have h0 : pos + ver.length = (line.take pos ++ ver).length + 0 := by
        simp [List.length_append, hPlen]
      rw [h0, matchAt_shift]
      exact hm0
    have hmin : ∀ k, pos ≤ k → k < pos + ver.length →
        matchAt ((line.take pos ++ ver) ++ line.drop j) endS k = false := by
      intro k hk1 hk2
      rw [List.append_assoc]
      have hk : k = (line.take pos).length + (k - pos) := by
        rw [hPlen]
        omega
      rw [hk, matchAt_shift, hdropj, ← List.append_assoc,
        matchAt_append_left (by simp [List.length_append]; omega)]
      exact hv4 (k - pos) (Nat.zero_le _) (by omega)
    have hfind' : pyFind ((line.take pos ++ ver) ++ line.drop j) endS pos
        = some (pos + ver.length) :=
      pyFind_eq_some (by omega) (by simp [List.length_append, hPlen]) hmB hmin
    have hex : extractFromLine ((line.take pos ++ ver) ++ line.drop j) pos endS = ver := by
      rw [extractFromLine_end_some hend hfind']
      exact take_PV (line.take pos) ver (line.drop j) pos hPlen
    refine roundtrip_core hln hget hnl_eq ?_ hex
    rcases WFlines_get_shape hwf0 hget with ⟨A, hA, hlA⟩ | ⟨hi, hno, _⟩
    · -- the target line ends with a newline
      have hAlen : line.length = A.length + 1 := by
        rw [hlA]
        simp
      have hjA : j ≤ A.length := by omega
      have hposA : pos ≤ A.length := by omega
      have htk : line.take pos = A.take pos := by
        rw [hlA]
        exact take_append_le A ['\n'] pos hposA
      have hdr : line.drop j = A.drop j ++ ['\n'] := by
        rw [hlA]
        exact drop_append_le A ['\n'] j hjA
      refine Or.inl ⟨(A.take pos ++ ver) ++ A.drop j, ?_, ?_⟩
      · exact noNl_append (noNl_append (noNl_take hA pos) hver) (noNl_drop hA j)
      · rw [htk, hdr]
        simp [List.append_assoc]
    · -- the target is a final line with no newline
      refine Or.inr ⟨hi, ?_, ?_⟩
      · exact noNl_append (noNl_append (noNl_take hno pos) hver) (noNl_drop hno j)
      · apply List.ne_nil_of_length_pos
        simp only [List.length_append, List.length_drop]
        omega
  · -- end-of-line mode (no terminator, or terminator not found)
    have hPlen : (line.take pos).length = pos := by
      rw [List.length_take]
      omega
    have hshape : (∃ B, noNl B ∧
        (line.take pos ++ ver) ++ ['\n'] = B ++ ['\n']) ∨
        ((ln - 1) + 1 = (splitKeepEnds content).length ∧
          noNl ((line.take pos ++ ver) ++ ['\n']) ∧
          (line.take pos ++ ver) ++ ['\n'] ≠ []) :=
      Or.inl ⟨line.take pos ++ ver, noNl_append hpreNl hver, rfl⟩
    have hNlen : ((line.take pos ++ ver) ++ ['\n']).length - 1 = pos + ver.length := by
      simp [List.length_append, hPlen]
    rcases hsub with hend0 | ⟨hend, hfindnone, hprefind⟩
    · -- no terminator at all
      subst hend0
      have hnl_eq : rewriteLine line pos [] ver = (line.take pos ++ ver) ++ ['\n'] :=
        rewriteLine_no_end line pos ver
      refine roundtrip_core hln hget hnl_eq hshape ?_
      rw [extractFromLine_no_end, hNlen]
      exact take_PV (line.take pos) ver ['\n'] pos hPlen
    · -- terminator given but not found: falls back to end-of-line
      have hnl_eq : rewriteLine line pos endS ver = (line.take pos ++ ver) ++ ['\n'] :=
        rewriteLine_end_none ver hend hfindnone
      refine roundtrip_core hln hget hnl_eq hshape ?_
      have hfind' : pyFind ((line.take pos ++ ver) ++ ['\n']) endS pos = none := by
        apply pyFind_eq_none
        intro k hk1 hk2
        have hk : k = (line.take pos).length + (k - pos) := by
          rw [hPlen]
          omega
        rw [List.append_assoc, hk, matchAt_shift]
        apply pyFind_none hprefind (k - pos) (Nat.zero_le _)
        simp only [List.length_append, List.length_cons, List.length_nil] at hk2 ⊢
        omega
      rw [extractFromLine_end_none hend hfind', hNlen]
      exact take_PV (line.take pos) ver ['\n'] pos hPlen

theorem C3_witness :
    (set_version_str "v=1.0;\n".data 1 2 ";".data "2.0".data).bind
      (fun c' => get_version_str c' 1 2 ";".data) = some "2.0".data :=
  C3_spec "v=1.0;\n".data 1 2 ";".data "2.0".data "v=1.0;\n".data rfl (by decide)
    (Or.inl ⟨by decide, ⟨5, rfl⟩, by decide⟩)

theorem C6_witness :
    get_version_str "x: 1.0 # c\n".data 1 3 "@".data =
        get_version_str "x: 1.0 # c\n".data 1 3 []
    ∧ set_version_str "x: 1.0 # c\n".data 1 3 "@".data "2.0".data =
        set_version_str "x: 1.0 # c\n".data 1 3 [] "2.0".data :=
  C6_spec "x: 1.0 # c\n".data 1 3 "@".data "2.0".data "x: 1.0 # c\n".data
    (by decide) rfl (by decide) rfl

theorem getLastq_concat {α : Type} : ∀ (l : List α) (a : α), (l ++ [a]).getLast? = some a := by
  intro l a
  induction l with
  | nil => rfl
  | cons x tl ih =>
    cases htl : tl ++ [a] with
    | nil =>
      have := congrArg List.length htl
      simp at this
    | cons y ys =>
      show (x :: (tl ++ [a])).getLast? = some a
      rw [htl]
      rw [htl] at ih
      exact ih

theorem process_package_upgrade_pending :
    ∀ {fs : FS} {pkg : Str} {cfgs : List FileConfig} {fs' : FS} {outs : List OutLine}
      {pending : Option Str},
      process_package fs pkg cfgs true = some (fs', outs, pending) → pending = none := by
  intro fs pkg cfgs fs' outs pending h
  unfold process_package at h
  split at h
  · exact Option.noConfusion h
  · split at h
    · injection h with h2
      injection h2 with ha hb
      injection hb with hb1 hb2
      exact hb2.symm
    · split at h
      · exact Option.noConfusion h
      · split at h
        · split at h
          · exact Option.noConfusion h
          · injection h with h2
            injection h2 with ha hb
            injection hb with hb1 hb2
            exact hb2.symm
        · next hc => exact absurd rfl hc

theorem process_config_go_upgrade :
    ∀ (cfgs : List (Str × List FileConfig)) (fs : FS) (outs : List OutLine),
      process_config_go true cfgs fs outs [] = ConfigResult.exn ∨
      ∃ fs' out, process_config_go true cfgs fs outs [] = ConfigResult.ok fs' out true := by
  intro cfgs
  induction cfgs with
  | nil =>
    intro fs outs
    right
    refine ⟨fs, outs ++ [OutLine.allMatch], ?_⟩
    simp [process_config_go]
  | cons p rest ih =>
    intro fs outs
    obtain ⟨pkg, pcfgs⟩ := p
    cases hp : process_package fs pkg pcfgs true with
    | none =>
      left
      simp only [process_config_go, hp]
    | some trip =>
      obtain ⟨fs2, pouts, pending⟩ := trip
      have hpend : pending = none := process_package_upgrade_pending hp
      subst hpend
      have hstep : process_config_go true ((pkg, pcfgs) :: rest) fs outs [] =
          process_config_go true rest fs2 (outs ++ pouts) [] := by
        simp only [process_config_go, hp]
      rw [hstep]
      exact ih fs2 (outs ++ pouts)

/-- C9: with upgrade mode enabled, `process_package` always returns no
pending upgrade, so `process_config` never reaches its `assert False` branch:
every run either propagates an exception or returns success. -/
theorem C9_spec : ∀ (fs : FS) (config : List (Str × List FileConfig)),
    process_config fs config true = ConfigResult.exn ∨
    ∃ fs' out, process_config fs config true = ConfigResult.ok fs' out true := by
  intro fs config
  exact process_config_go_upgrade config fs []

theorem process_config_go_last :
    ∀ (cfgs : List (Str × List FileConfig)) (fs : FS) (outs : List OutLine)
      (fs' : FS) (out : List OutLine) (b : Bool),
      process_config_go true cfgs fs outs [] = ConfigResult.ok fs' out b →
      b = true ∧ out.getLast? = some OutLine.allMatch := by
  intro cfgs
  induction cfgs with
  | nil =>
    intro fs outs fs' out b h
    simp only [process_config_go] at h
    split at h
    · injection h with ha hb hc
      refine ⟨hc.symm, ?_⟩
      rw [← hb]
      exact getLastq_concat _ _
    · next hcond => exact absurd trivial hcond
  | cons p rest ih =>
    intro fs outs fs' out b h
    obtain ⟨pkg, pcfgs⟩ := p
    cases hp : process_package fs pkg pcfgs true with
    | none =>
      rw [show process_config_go true ((pkg, pcfgs) :: rest) fs outs [] =
        ConfigResult.exn from by simp only [process_config_go, hp]] at h
      exact ConfigResult.noConfusion h
    | some trip =>
      obtain ⟨fs2, pouts, pending⟩ := trip
      have hpend : pending = none := process_package_upgrade_pending hp
      subst hpend
      rw [show process_config_go true ((pkg, pcfgs) :: rest) fs outs [] =
        process_config_go true rest fs2 (outs ++ pouts) [] from by
          simp only [process_config_go, hp]] at h
      exact ih fs2 (outs ++ pouts) fs' out b h

/-- C10: in upgrade mode, whenever `process_config` returns normally — in
particular after mismatches were found and files rewritten — its final
printed line is `All versions match` and the returned result is success; the
all-match message is not restricted to runs that rewrote nothing. -/
theorem C10_spec : ∀ (fs : FS) (config : List (Str × List FileConfig))
    (fs' : FS) (out : List OutLine) (b : Bool),
    process_config fs config true = ConfigResult.ok fs' out b →
    b = true ∧ out.getLast? = some OutLine.allMatch := by
  intro fs config fs' out b h
  exact process_config_go_last config fs [] fs' out b h

theorem C10_witness :
    process_config fsU cfgU true = ConfigResult.ok fsU' outU true
    ∧ outU.getLast? = some OutLine.allMatch := by
  have h : process_config fsU cfgU true = ConfigResult.ok fsU' outU true := by rfl
  exact ⟨h, (C10_spec fsU cfgU fsU' outU true h).2⟩

end VersionSync
